import Mathlib

/-!
Shallow embedding of `src/suffix_array.cc`: the prefix-doubling suffix-array
construction `buildSuffixArrayAndLCP` together with Kasai's LCP pass, and
proofs of the specification's properties about it.

The input text is modelled as a finite list of symbol ordinals (`List Nat`).
The C++ `vector<int>` rank table is modelled as a function `Nat → Int`
(reads and wholesale replacement only); the `-1` sentinel of the comparator
is kept as the integer `-1`.  `std::sort` with a strict-weak-order comparator
is modelled by `List.insertionSort` on the relation `¬ cmp j i`, a sort that
is correct for the comparator's induced order (the observable outputs do not
depend on which comparator-consistent sort is used).  The unbounded
`for (gap = 1; ; gap *= 2)` loop is modelled with explicit fuel `n`; fuel
sufficiency (the loop always breaks within `n` passes) is proved below.
-/

namespace SuffixArray

/-- The input text: a finite sequence of symbols by their ordinal values. -/
abbrev Text := List Nat

/-- The suffix of `t` starting at position `i`. -/
def suffixAt (t : Text) (i : Nat) : List Nat := t.drop i

/-- The first `g` symbols of the suffix starting at `i` (comparison key of
the doubling pass with granularity `g`). -/
def keyAt (t : Text) (g i : Nat) : List Nat := (t.drop i).take g

/-- Length of the longest common prefix of two symbol sequences, by direct
symbol comparison. -/
def lcpLen : List Nat → List Nat → Nat
  | a :: as, b :: bs => if a = b then lcpLen as bs + 1 else 0
  | _, _ => 0

/-- Source lines 43-50: the comparator `compare_suffixes` of the doubling
pass, reading the current rank table, with sentinel `-1` for positions whose
"next rank" index `i + gap` falls off the end. -/
def compare_suffixes (n : Nat) (rank_array : Nat → Int) (gap i j : Nat) : Bool :=
  if rank_array i ≠ rank_array j then
    decide (rank_array i < rank_array j)
  else
    let ri_next : Int := if i + gap < n then rank_array (i + gap) else -1
    let rj_next : Int := if j + gap < n then rank_array (j + gap) else -1
    decide (ri_next < rj_next)

/-- The non-strict order induced by the comparator (`i` need not come after
`j`); `std::sort` produces a sequence that is `Sorted` for this relation. -/
def saLe (n : Nat) (rank_array : Nat → Int) (gap : Nat) (i j : Nat) : Prop :=
  compare_suffixes n rank_array gap j i = false

instance (n : Nat) (ra : Nat → Int) (gap : Nat) : DecidableRel (saLe n ra gap) :=
  fun _ _ => inferInstanceAs (Decidable (_ = false))

/-- Source lines 54-58, walked along the sorted array: the new ranks assigned
to the tail, given the previous element and its already-assigned rank. -/
def ranks_from (cmp : Nat → Nat → Bool) : Nat → Int → List Nat → List Int
  | _, _, [] => []
  | prev, pr, a :: rest =>
    let ra := pr + (if cmp prev a then 1 else 0)
    ra :: ranks_from cmp a ra rest

/-- The ranks assigned along the sorted array: `0` for its head, then
`+1` exactly at comparator-strict adjacent pairs. -/
def rank_values (cmp : Nat → Nat → Bool) : List Nat → List Int
  | [] => []
  | a :: rest => 0 :: ranks_from cmp a 0 rest

/-- Source lines 54-62 as the resulting rank table: position `p` receives the
rank assigned at `p`'s slot in the sorted array. -/
def temp_rank (cmp : Nat → Nat → Bool) (sa : List Nat) (p : Nat) : Int :=
  (rank_values cmp sa).getD (sa.indexOf p) 0

/-- The state carried by the doubling loop: the suffix array being sorted and
the current rank table. -/
structure SAState where
  sa : List Nat
  rank_array : Nat → Int

/-- One pass of the doubling loop (source lines 43-62): sort by the
comparator at the current `gap`, then recompute the rank table. -/
def pass (n gap : Nat) (st : SAState) : SAState :=
  let sa' := List.insertionSort (saLe n st.rank_array gap) st.sa
  { sa := sa', rank_array := temp_rank (compare_suffixes n st.rank_array gap) sa' }

/-- The break test of source lines 64-66: the rank of the last entry of the
sorted array equals `n - 1`, i.e. all suffixes are distinguished. -/
def breakCond (n : Nat) (st : SAState) : Prop :=
  st.rank_array (st.sa.getD (n - 1) 0) = (n : Int) - 1

instance (n : Nat) (st : SAState) : Decidable (breakCond n st) :=
  inferInstanceAs (Decidable (_ = _))

/-- Source lines 42-67: the doubling loop, with explicit fuel.  The C++ loop
is unbounded; fuel `n` is proved sufficient below (`saLoop_fuel_irrel`,
`saLoop_breaks`). -/
def saLoop (n : Nat) : Nat → Nat → SAState → SAState
  | 0, _, st => st
  | fuel + 1, gap, st =>
    let st' := pass n gap st
    if breakCond n st' then st' else saLoop n fuel (gap * 2) st'

/-- The instrumented trace of the doubling loop: the state after each
executed pass, in order. -/
def loopTrace (n : Nat) : Nat → Nat → SAState → List SAState
  | 0, _, _ => []
  | fuel + 1, gap, st =>
    let st' := pass n gap st
    if breakCond n st' then [st'] else st' :: loopTrace n fuel (gap * 2) st'

/-- Source lines 36-39: identity suffix array, initial ranks the raw symbol
ordinals. -/
def initState (t : Text) : SAState :=
  { sa := List.range t.length, rank_array := fun i => ((t.getD i 0 : Nat) : Int) }

/-- The doubling phase of `buildSuffixArrayAndLCP` on text `t`. -/
def buildSA (t : Text) : SAState :=
  saLoop t.length t.length 1 (initState t)

/-- Number of executions of the doubling-loop body on input `t`: zero when
the `n == 0` early return (source lines 28-30) skips the loop. -/
def passCount (t : Text) : Nat :=
  if t.length = 0 then 0 else (loopTrace t.length t.length 1 (initState t)).length

/-- Source lines 77-79: the `while` of Kasai's pass, extending the running
match length `h` while both positions are in range and the symbols agree.
The while loop is modelled with explicit fuel (it performs at most `n`
increments, see `extendH_eq`); callers pass fuel `n`. -/
def extendH (t : Text) (n i p : Nat) : Nat → Nat → Nat
  | 0, h => h
  | fuel + 1, h =>
    if i + h < n ∧ p + h < n ∧ t.getD (i + h) 0 = t.getD (p + h) 0 then
      extendH t n i p fuel (h + 1)
    else h

/-- Source lines 72-86: Kasai's pass over original positions `i`, carrying
the running match length `h` and the LCP array being filled.  The `for` loop
over `i < n` is modelled with explicit fuel; callers pass fuel `n`, which is
exactly the number of iterations. -/
def kasaiGo (t : Text) (n : Nat) (sa : List Nat) (rank_array : Nat → Int) :
    Nat → Nat → Nat → List Int → List Int
  | 0, _, _, lcp => lcp
  | fuel + 1, i, h, lcp =>
    if i < n then
      if 0 < rank_array i then
        let prev_sa_idx := sa.getD (rank_array i - 1).toNat 0
        let h' := extendH t n i prev_sa_idx n h
        kasaiGo t n sa rank_array fuel (i + 1) (if 0 < h' then h' - 1 else h')
          (lcp.set (rank_array i).toNat (h' : Int))
      else
        kasaiGo t n sa rank_array fuel (i + 1) h lcp
    else lcp

/-- Source lines 25-89: the whole construction, returning the suffix array
and the LCP array; empty input returns two empty arrays (lines 28-30). -/
def buildSuffixArrayAndLCP (t : Text) : List Nat × List Int :=
  let n := t.length
  if n = 0 then ([], [])
  else
    let st := buildSA t
    (st.sa, kasaiGo t n st.sa st.rank_array n 0 0 (List.replicate n 0))

/-- Strict lexicographic order on symbol sequences, where a proper initial
segment comes before any extension of it. -/
def lexLt (a b : List Nat) : Prop := List.Lex (· < ·) a b

/-- Non-strict lexicographic order on symbol sequences. -/
def lexLe (a b : List Nat) : Prop := lexLt a b ∨ a = b

instance : DecidableRel lexLt :=
  fun a b => inferInstanceAs (Decidable (List.Lex _ a b))

instance : DecidableRel lexLe :=
  fun _ _ => inferInstanceAs (Decidable (_ ∨ _))

/-- The "next rank" read by the comparator: `rank_array (i + gap)` when in
range, else the sentinel `-1`. -/
def nextRank (n : Nat) (rank_array : Nat → Int) (gap i : Nat) : Int :=
  if i + gap < n then rank_array (i + gap) else -1

/-- The doubling-pass invariant: ranks are non-negative and order positions
exactly as the length-`g` truncated suffixes compare lexicographically. -/
def KeyInv (t : Text) (g : Nat) (r : Nat → Int) : Prop :=
  (∀ i, i < t.length → 0 ≤ r i) ∧
  ∀ i, i < t.length → ∀ j, j < t.length →
    (r i < r j ↔ lexLt (keyAt t g i) (keyAt t g j))

/-- The text `"banana"` as its sequence of ASCII ordinals. -/
def bananaText : Text := [98, 97, 110, 97, 110, 97]

/-- The text `"mississippi"` as its sequence of ASCII ordinals. -/
def mississippiText : Text := [109, 105, 115, 115, 105, 115, 115, 105, 112, 112, 105]

/-- The target state of the doubling phase: the array is a permutation of
`0..n-1`, the rank table is its inverse, and adjacent entries carry strictly
increasing suffixes. -/
def GoodState (t : Text) (st : SAState) : Prop :=
  st.sa.Perm (List.range t.length) ∧
  (∀ k, k < t.length → st.rank_array (st.sa.getD k 0) = (k : Int)) ∧
  (∀ k, k + 1 < t.length →
    lexLt (suffixAt t (st.sa.getD k 0)) (suffixAt t (st.sa.getD (k + 1) 0)))

end SuffixArray

namespace SuffixArray

/-! ### Basic facts about the lexicographic order -/

theorem lexLt_trans {a b c : List Nat} (h₁ : lexLt a b) (h₂ : lexLt b c) : lexLt a c :=
  trans_of (List.Lex (· < ·)) h₁ h₂

theorem lexLt_irrefl (a : List Nat) : ¬ lexLt a a :=
  irrefl_of (List.Lex (· < ·)) a

theorem lexLt_asymm {a b : List Nat} (h : lexLt a b) : ¬ lexLt b a :=
  asymm_of (List.Lex (· < ·)) h

theorem lexLt_trichotomy (a b : List Nat) : lexLt a b ∨ a = b ∨ lexLt b a :=
  trichotomous_of (List.Lex (· < ·)) a b

theorem lexLe_refl (a : List Nat) : lexLe a a := Or.inr rfl

theorem lexLe_of_lexLt {a b : List Nat} (h : lexLt a b) : lexLe a b := Or.inl h

theorem lexLt_of_lexLe_of_lexLt {a b c : List Nat} (h₁ : lexLe a b) (h₂ : lexLt b c) :
    lexLt a c := by
  rcases h₁ with h₁ | rfl
  · exact lexLt_trans h₁ h₂
  · exact h₂

theorem lexLe_of_not_lexLt {a b : List Nat} (h : ¬ lexLt b a) : lexLe a b := by
  rcases lexLt_trichotomy a b with h' | h' | h'
  · exact Or.inl h'
  · exact Or.inr h'
  · exact absurd h' h

theorem eq_of_not_lexLt_of_not_lexLt {a b : List Nat} (h₁ : ¬ lexLt a b) (h₂ : ¬ lexLt b a) :
    a = b := by
  rcases lexLt_trichotomy a b with h | h | h
  · exact absurd h h₁
  · exact h
  · exact absurd h h₂

theorem not_lexLt_nil (a : List Nat) : ¬ lexLt a [] :=
  List.Lex.not_nil_right _ _

theorem nil_lexLt_cons (a : Nat) (l : List Nat) : lexLt [] (a :: l) :=
  List.Lex.nil

theorem lexLt_cons_same {x : Nat} {a b : List Nat} : lexLt (x :: a) (x :: b) ↔ lexLt a b :=
  List.Lex.cons_iff

theorem lexLt_cons_iff {x y : Nat} {a b : List Nat} :
    lexLt (x :: a) (y :: b) ↔ x < y ∨ (x = y ∧ lexLt a b) := by
  constructor
  · intro h
    cases h with
    | cons h => exact Or.inr ⟨rfl, h⟩
    | rel h => exact Or.inl h
  · rintro (h | ⟨rfl, h⟩)
    · exact List.Lex.rel h
    · exact List.Lex.cons h

theorem lexLt_append_same {c a b : List Nat} : lexLt (c ++ a) (c ++ b) ↔ lexLt a b := by
  induction c with
  | nil => exact Iff.rfl
  | cons x xs ih =>
    rw [List.cons_append, List.cons_append, lexLt_cons_same]
    exact ih

theorem lexLt_self_append {a x : List Nat} (hx : x ≠ []) : lexLt a (a ++ x) := by
  have h : lexLt (a ++ []) (a ++ x) := by
    rw [lexLt_append_same]
    cases x with
    | nil => exact absurd rfl hx
    | cons y ys => exact nil_lexLt_cons y ys
  rw [List.append_nil] at h
  exact h

theorem lexLe_cons_iff {x y : Nat} {a b : List Nat} :
    lexLe (x :: a) (y :: b) ↔ x < y ∨ (x = y ∧ lexLe a b) := by
  unfold lexLe
  rw [lexLt_cons_iff]
  constructor
  · rintro ((h | ⟨rfl, h⟩) | h)
    · exact Or.inl h
    · exact Or.inr ⟨rfl, Or.inl h⟩
    · injection h with h1 h2
      exact Or.inr ⟨h1, Or.inr h2⟩
  · rintro (h | ⟨rfl, h | rfl⟩)
    · exact Or.inl (Or.inl h)
    · exact Or.inl (Or.inr ⟨rfl, h⟩)
    · exact Or.inr rfl

theorem lexLt_of_take_lexLt {a b : List Nat} :
    ∀ (m : Nat), lexLt (a.take m) (b.take m) → lexLt a b := by
  induction a generalizing b with
  | nil =>
    intro m h
    cases b with
    | nil => simp at h; exact absurd h (not_lexLt_nil _)
    | cons y ys => exact nil_lexLt_cons y ys
  | cons x xs ih =>
    intro m h
    cases m with
    | zero => exact absurd h (not_lexLt_nil _)
    | succ m =>
      cases b with
      | nil => exact absurd h (not_lexLt_nil _)
      | cons y ys =>
        simp only [List.take_succ_cons] at h
        rcases lexLt_cons_iff.1 h with h' | ⟨rfl, h'⟩
        · exact List.Lex.rel h'
        · exact List.Lex.cons (ih m h')

/-! ### Facts about `lcpLen` -/

theorem lcpLen_le_left : ∀ (a b : List Nat), lcpLen a b ≤ a.length
  | [], _ => by simp [lcpLen]
  | _ :: _, [] => by simp [lcpLen]
  | x :: xs, y :: ys => by
    by_cases h : x = y <;> simp [lcpLen, h, Nat.succ_le_succ (lcpLen_le_left xs ys)]

theorem lcpLen_comm : ∀ (a b : List Nat), lcpLen a b = lcpLen b a
  | [], [] => rfl
  | [], _ :: _ => rfl
  | _ :: _, [] => rfl
  | x :: xs, y :: ys => by
    by_cases h : x = y
    · subst h; simp [lcpLen, lcpLen_comm xs ys]
    · simp [lcpLen, h, Ne.symm h]

theorem lcpLen_le_right (a b : List Nat) : lcpLen a b ≤ b.length :=
  lcpLen_comm a b ▸ lcpLen_le_left b a

theorem getD_eq_of_lt_lcpLen :
    ∀ {a b : List Nat} {h : Nat}, h < lcpLen a b → a.getD h 0 = b.getD h 0
  | x :: xs, y :: ys, h, hlt => by
    by_cases hxy : x = y
    · subst hxy
      cases h with
      | zero => rfl
      | succ h =>
        simp only [lcpLen, if_true, eq_self_iff_true] at hlt
        simp only [List.getD_cons_succ]
        exact getD_eq_of_lt_lcpLen (Nat.lt_of_succ_lt_succ hlt)
    · simp [lcpLen, hxy] at hlt
  | [], _, h, hlt => by simp [lcpLen] at hlt
  | _ :: _, [], h, hlt => by simp [lcpLen] at hlt

theorem getD_ne_of_lcpLen_lt :
    ∀ {a b : List Nat}, lcpLen a b < a.length → lcpLen a b < b.length →
      a.getD (lcpLen a b) 0 ≠ b.getD (lcpLen a b) 0
  | x :: xs, y :: ys, ha, hb => by
    by_cases hxy : x = y
    · subst hxy
      simp only [lcpLen, if_true, eq_self_iff_true] at ha hb ⊢
      simp only [List.getD_cons_succ]
      exact getD_ne_of_lcpLen_lt (Nat.lt_of_succ_lt_succ ha) (Nat.lt_of_succ_lt_succ hb)
    · simp only [lcpLen, if_neg hxy, List.getD_cons_zero]
      exact hxy
  | [], _, ha, _ => by simp at ha
  | _ :: _, [], _, hb => by simp at hb

theorem take_lcpLen_eq : ∀ (a b : List Nat), a.take (lcpLen a b) = b.take (lcpLen a b)
  | [], _ => by simp [lcpLen]
  | _ :: _, [] => by simp [lcpLen]
  | x :: xs, y :: ys => by
    by_cases h : x = y
    · subst h; simp [lcpLen, take_lcpLen_eq xs ys]
    · simp [lcpLen, h]

theorem le_lcpLen_of_take_eq :
    ∀ {k : Nat} {a b : List Nat}, k ≤ a.length → a.take k = b.take k → k ≤ lcpLen a b
  | 0, _, _, _, _ => Nat.zero_le _
  | k + 1, x :: xs, b, hk, ht => by
    cases b with
    | nil => simp at ht
    | cons y ys =>
      simp only [List.take_succ_cons, List.cons.injEq] at ht
      rcases ht with ⟨rfl, ht⟩
      have := le_lcpLen_of_take_eq (Nat.le_of_succ_le_succ hk) ht
      simp only [lcpLen, if_true, eq_self_iff_true]
      omega

/-- Sandwich: if `x ≤ y ≤ z` and `x`, `z` agree on their first `k` symbols
(with `k` within `x`), then `y` agrees with them as well. -/
theorem take_eq_of_between :
    ∀ (k : Nat) (x y z : List Nat), lexLe x y → lexLe y z →
      x.take k = z.take k → k ≤ x.length → y.take k = x.take k
  | 0, _, _, _, _, _, _, _ => by simp
  | k + 1, x, y, z, hxy, hyz, ht, hk => by
    cases x with
    | nil => simp at hk
    | cons a xs =>
      cases z with
      | nil => simp at ht
      | cons c zs =>
        simp only [List.take_succ_cons, List.cons.injEq] at ht
        rcases ht with ⟨rfl, hts⟩
        cases y with
        | nil =>
          rcases hxy with h | h
          · exact absurd h (not_lexLt_nil _)
          · simp at h
        | cons b ys =>
          rcases lexLe_cons_iff.1 hxy with hab | ⟨hab, hxy'⟩ <;>
            rcases lexLe_cons_iff.1 hyz with hbc | ⟨hbc, hyz'⟩
          · omega
          · omega
          · omega
          · subst hab
            have := take_eq_of_between k xs ys zs hxy' hyz' hts (Nat.le_of_succ_le_succ hk)
            simp [this]

/-- If `x ≤ y ≤ z` then `y` matches `z` at least as far as `x` does. -/
theorem lcpLen_le_of_between {x y z : List Nat} (hxy : lexLe x y) (hyz : lexLe y z) :
    lcpLen z x ≤ lcpLen z y := by
  set m := lcpLen z x with hm
  have hmz : m ≤ z.length := lcpLen_le_left z x
  have hmx : m ≤ x.length := lcpLen_le_right z x
  have htzx : z.take m = x.take m := take_lcpLen_eq z x
  have hty : y.take m = x.take m :=
    take_eq_of_between m x y z hxy hyz (htzx.symm) hmx
  exact le_lcpLen_of_take_eq hmz (htzx.trans hty.symm)

/-! ### Facts about suffixes and truncated-suffix keys -/

theorem suffixAt_length (t : Text) (i : Nat) : (suffixAt t i).length = t.length - i :=
  List.length_drop i t

theorem suffixAt_getD (t : Text) (i h : Nat) (d : Nat) :
    (suffixAt t i).getD h d = t.getD (i + h) d := by
  simp [suffixAt, List.getD_eq_getElem?_getD, List.getElem?_drop]

theorem suffixAt_eq_nil_of_le {t : Text} {i : Nat} (h : t.length ≤ i) :
    suffixAt t i = [] := by
  simp [suffixAt, List.drop_eq_nil_iff.2 h]

theorem suffixAt_ne_nil {t : Text} {i : Nat} (h : i < t.length) :
    suffixAt t i ≠ [] := by
  intro he
  have := suffixAt_length t i
  rw [he] at this
  simp at this
  omega

theorem suffixAt_inj {t : Text} {i j : Nat} (hi : i < t.length) (hj : j < t.length)
    (h : suffixAt t i = suffixAt t j) : i = j := by
  have h1 := suffixAt_length t i
  have h2 := suffixAt_length t j
  rw [h, h2] at h1
  omega

theorem suffixAt_cons {t : Text} {i : Nat} (h : i < t.length) :
    suffixAt t i = t.getD i 0 :: suffixAt t (i + 1) := by
  rw [suffixAt, List.drop_eq_getElem_cons h, List.getD_eq_getElem t 0 h]
  rfl

theorem keyAt_eq_take (t : Text) (g i : Nat) : keyAt t g i = (suffixAt t i).take g := rfl

theorem keyAt_length (t : Text) (g i : Nat) :
    (keyAt t g i).length = min g (t.length - i) := by
  simp [keyAt, List.length_take]

theorem keyAt_split (t : Text) (g i : Nat) :
    keyAt t (g * 2) i = keyAt t g i ++ keyAt t g (i + g) := by
  unfold keyAt
  rw [Nat.mul_two, List.take_add, List.drop_drop]

theorem keyAt_nil_of_ge {t : Text} {g i : Nat} (h : t.length ≤ i) : keyAt t g i = [] := by
  unfold keyAt
  rw [List.drop_eq_nil_iff.2 h, List.take_nil]

theorem keyAt_ne_nil {t : Text} {g i : Nat} (hi : i < t.length) (hg : 0 < g) :
    keyAt t g i ≠ [] := by
  intro he
  have := keyAt_length t g i
  rw [he] at this
  simp at this
  omega

theorem nil_lexLt_of_ne_nil {l : List Nat} (h : l ≠ []) : lexLt [] l := by
  cases l with
  | nil => exact absurd rfl h
  | cons a l => exact nil_lexLt_cons a l

/-- Appending continuation material to two distinct bounded keys does not
change how they compare, provided a key shorter than the bound `g` (a key
that reaches the end of the text) gets nothing appended. -/
theorem lexLt_append_iff_of_ne (g : Nat) (a b x y : List Nat) (hg : 0 < g) (hne : a ≠ b)
    (ha : a.length ≤ g) (hb : b.length ≤ g) (hx : a.length < g → x = [])
    (hy : b.length < g → y = []) : lexLt (a ++ x) (b ++ y) ↔ lexLt a b := by
  induction a generalizing b g x y with
  | nil =>
    cases b with
    | nil => exact absurd rfl hne
    | cons q bs =>
      rw [hx (by simpa using hg)]
      simp only [List.nil_append, List.cons_append]
      exact iff_of_true (nil_lexLt_cons _ _) (nil_lexLt_cons _ _)
  | cons p as ih =>
    cases b with
    | nil =>
      rw [hy (by simpa using hg)]
      simp only [List.nil_append, List.cons_append]
      exact iff_of_false (not_lexLt_nil _) (not_lexLt_nil _)
    | cons q bs =>
      simp only [List.cons_append]
      rw [lexLt_cons_iff, lexLt_cons_iff]
      by_cases hpq : p = q
      · subst hpq
        cases g with
        | zero => omega
        | succ g' =>
          rcases Nat.eq_zero_or_pos g' with h0 | hg'
          · subst h0
            have has : as = [] := by
              simp only [List.length_cons] at ha
              exact List.eq_nil_of_length_eq_zero (by omega)
            have hbs : bs = [] := by
              simp only [List.length_cons] at hb
              exact List.eq_nil_of_length_eq_zero (by omega)
            exact absurd (by rw [has, hbs]) hne
          · have hne' : as ≠ bs := fun h => hne (by rw [h])
            have ha' : as.length ≤ g' := by simp only [List.length_cons] at ha; omega
            have hb' : bs.length ≤ g' := by simp only [List.length_cons] at hb; omega
            have hx' : as.length < g' → x = [] := fun h =>
              hx (by simp only [List.length_cons]; omega)
            have hy' : bs.length < g' → y = [] := fun h =>
              hy (by simp only [List.length_cons]; omega)
            rw [ih g' bs x y hg' hne' ha' hb' hx' hy']
      · constructor
        · rintro (h | ⟨rfl, _⟩)
          · exact Or.inl h
          · exact absurd rfl hpq
        · rintro (h | ⟨rfl, _⟩)
          · exact Or.inl h
          · exact absurd rfl hpq

/-! ### The comparator as a lexicographic test on rank pairs -/

theorem compare_suffixes_true_iff (n : Nat) (ra : Nat → Int) (gap i j : Nat) :
    compare_suffixes n ra gap i j = true ↔
      (ra i < ra j ∨ (ra i = ra j ∧ nextRank n ra gap i < nextRank n ra gap j)) := by
  unfold compare_suffixes nextRank
  by_cases h : ra i = ra j
  · simp [h]
  · simp [h]

theorem compare_suffixes_false_iff (n : Nat) (ra : Nat → Int) (gap i j : Nat) :
    compare_suffixes n ra gap i j = false ↔
      ¬ (ra i < ra j ∨ (ra i = ra j ∧ nextRank n ra gap i < nextRank n ra gap j)) := by
  rw [← Bool.not_eq_true, compare_suffixes_true_iff]

theorem saLe_iff (n : Nat) (ra : Nat → Int) (gap i j : Nat) :
    saLe n ra gap i j ↔
      (ra i < ra j ∨ (ra i = ra j ∧ nextRank n ra gap i ≤ nextRank n ra gap j)) := by
  rw [saLe, compare_suffixes_false_iff]
  constructor
  · intro h
    omega
  · intro h
    omega

instance (n : Nat) (ra : Nat → Int) (gap : Nat) : IsTotal Nat (saLe n ra gap) :=
  ⟨fun a b => by rw [saLe_iff, saLe_iff]; omega⟩

instance (n : Nat) (ra : Nat → Int) (gap : Nat) : IsTrans Nat (saLe n ra gap) :=
  ⟨fun a b c hab hbc => by
    rw [saLe_iff] at hab hbc ⊢
    omega⟩

theorem KeyInv.rank_eq_iff {t : Text} {g : Nat} {r : Nat → Int} (hinv : KeyInv t g r)
    {i j : Nat} (hi : i < t.length) (hj : j < t.length) :
    r i = r j ↔ keyAt t g i = keyAt t g j := by
  rcases hinv with ⟨_, hiff⟩
  constructor
  · intro h
    apply eq_of_not_lexLt_of_not_lexLt
    · rw [← hiff i hi j hj]
      omega
    · rw [← hiff j hj i hi]
      omega
  · intro h
    rcases lt_trichotomy (r i) (r j) with hlt | heq | hlt
    · rw [hiff i hi j hj, h] at hlt
      exact absurd hlt (lexLt_irrefl _)
    · exact heq
    · rw [hiff j hj i hi, h] at hlt
      exact absurd hlt (lexLt_irrefl _)

/-- The comparator at gap `g`, reading a rank table that orders positions by
their length-`g` keys, decides the order of the length-`2g` keys. -/
theorem compare_suffixes_key_iff {t : Text} {g : Nat} {r : Nat → Int}
    (hinv : KeyInv t g r) (hg : 0 < g) {i j : Nat}
    (hi : i < t.length) (hj : j < t.length) :
    (compare_suffixes t.length r g i j = true ↔
      lexLt (keyAt t (g * 2) i) (keyAt t (g * 2) j)) := by
  have hpos := hinv.1
  have hiff := hinv.2
  rw [compare_suffixes_true_iff, keyAt_split t g i, keyAt_split t g j]
  by_cases hrij : r i = r j
  · have hkeq : keyAt t g i = keyAt t g j := (hinv.rank_eq_iff hi hj).1 hrij
    rw [← hkeq, lexLt_append_same]
    have hlhs : (r i < r j ∨ (r i = r j ∧ nextRank t.length r g i < nextRank t.length r g j))
        ↔ nextRank t.length r g i < nextRank t.length r g j := by
      constructor
      · intro h
        rcases h with h | ⟨_, h⟩
        · omega
        · exact h
      · intro h
        exact Or.inr ⟨hrij, h⟩
    rw [hlhs]
    unfold nextRank
    by_cases hig : i + g < t.length <;> by_cases hjg : j + g < t.length
    · rw [if_pos hig, if_pos hjg]
      exact hiff _ hig _ hjg
    · rw [if_pos hig, if_neg hjg]
      have h1 : ¬ (r (i + g) < -1) := by have := hpos _ hig; omega
      have h2 : keyAt t g (j + g) = [] := keyAt_nil_of_ge (by omega)
      rw [h2]
      exact iff_of_false h1 (not_lexLt_nil _)
    · rw [if_neg hig, if_pos hjg]
      have h1 : (-1 : Int) < r (j + g) := by have := hpos _ hjg; omega
      have h2 : keyAt t g (i + g) = [] := keyAt_nil_of_ge (by omega)
      rw [h2]
      exact iff_of_true h1 (nil_lexLt_of_ne_nil (keyAt_ne_nil hjg hg))
    · rw [if_neg hig, if_neg hjg]
      have h2 : keyAt t g (i + g) = [] := keyAt_nil_of_ge (by omega)
      have h3 : keyAt t g (j + g) = [] := keyAt_nil_of_ge (by omega)
      rw [h2, h3]
      exact iff_of_false (by omega) (not_lexLt_nil _)
  · have hkne : keyAt t g i ≠ keyAt t g j := fun h =>
      hrij ((hinv.rank_eq_iff hi hj).2 h)
    have hlhs : (r i < r j ∨ (r i = r j ∧ nextRank t.length r g i < nextRank t.length r g j))
        ↔ r i < r j := by
      constructor
      · intro h
        rcases h with h | ⟨h, _⟩
        · exact h
        · exact absurd h hrij
      · exact Or.inl
    rw [hlhs, hiff i hi j hj]
    have hbound : ∀ p : Nat, p < t.length →
        ((keyAt t g p).length ≤ g ∧ ((keyAt t g p).length < g → keyAt t g (p + g) = [])) := by
      intro p hp
      have hl := keyAt_length t g p
      constructor
      · omega
      · intro hlt
        apply keyAt_nil_of_ge
        omega
    exact (lexLt_append_iff_of_ne g (keyAt t g i) (keyAt t g j) _ _ hg hkne
      (hbound i hi).1 (hbound j hj).1 (hbound i hi).2 (hbound j hj).2).symm

/-! ### The recomputed rank table -/

theorem ranks_from_length (cmp : Nat → Nat → Bool) :
    ∀ (l : List Nat) (prev : Nat) (pr : Int), (ranks_from cmp prev pr l).length = l.length
  | [], _, _ => rfl
  | a :: rest, prev, pr => by
    simp only [ranks_from, List.length_cons]
    rw [ranks_from_length cmp rest]

theorem rank_values_length (cmp : Nat → Nat → Bool) (s : List Nat) :
    (rank_values cmp s).length = s.length := by
  cases s with
  | nil => rfl
  | cons a rest =>
    simp only [rank_values, List.length_cons]
    rw [ranks_from_length cmp rest]

theorem rank_values_getD_zero (cmp : Nat → Nat → Bool) (s : List Nat) :
    (rank_values cmp s).getD 0 0 = 0 := by
  cases s with
  | nil => rfl
  | cons a rest => rfl

theorem ranks_from_getD_succ (cmp : Nat → Nat → Bool) :
    ∀ (l : List Nat) (prev : Nat) (pr : Int) (k : Nat), k + 1 < l.length →
      (ranks_from cmp prev pr l).getD (k + 1) 0 =
        (ranks_from cmp prev pr l).getD k 0 +
          (if cmp (l.getD k 0) (l.getD (k + 1) 0) then 1 else 0)
  | [], _, _, _, h => by simp at h
  | a :: rest, prev, pr, 0, h => by
    cases rest with
    | nil => simp at h
    | cons b rest' => simp [ranks_from]
  | a :: rest, prev, pr, k + 1, h => by
    simp only [ranks_from, List.getD_cons_succ]
    exact ranks_from_getD_succ cmp rest a _ k (by simp at h; omega)

theorem rank_values_getD_succ (cmp : Nat → Nat → Bool) (s : List Nat) (k : Nat)
    (h : k + 1 < s.length) :
    (rank_values cmp s).getD (k + 1) 0 =
      (rank_values cmp s).getD k 0 +
        (if cmp (s.getD k 0) (s.getD (k + 1) 0) then 1 else 0) := by
  cases s with
  | nil => simp at h
  | cons a rest =>
    cases k with
    | zero =>
      cases rest with
      | nil => simp at h
      | cons b rest' => simp [rank_values, ranks_from]
    | succ k =>
      simp only [rank_values, List.getD_cons_succ]
      exact ranks_from_getD_succ cmp rest a 0 k (by simp at h; omega)

theorem rank_values_nonneg (cmp : Nat → Nat → Bool) (s : List Nat) :
    ∀ (k : Nat), 0 ≤ (rank_values cmp s).getD k 0 := by
  intro k
  induction k with
  | zero => rw [rank_values_getD_zero]
  | succ k ih =>
    by_cases h : k + 1 < s.length
    · rw [rank_values_getD_succ cmp s k h]
      split <;> omega
    · rw [List.getD_eq_default]
      rw [rank_values_length]
      omega

theorem rank_values_mono (cmp : Nat → Nat → Bool) (s : List Nat) :
    ∀ (k m : Nat), k ≤ m → m < s.length →
      (rank_values cmp s).getD k 0 ≤ (rank_values cmp s).getD m 0 := by
  intro k m hkm hm
  induction m with
  | zero =>
    have : k = 0 := by omega
    subst this
    exact le_refl _
  | succ m ih =>
    rcases Nat.lt_succ_iff_lt_or_eq.1 (Nat.lt_succ_of_le hkm) with h | h
    · have := ih (by omega) (by omega)
      rw [rank_values_getD_succ cmp s m (by omega)]
      split <;> omega
    · subst h
      exact le_refl _

/-- Each rank step is at most `+1`, so the rank at slot `k` is at most `k`. -/
theorem rank_values_le_index (cmp : Nat → Nat → Bool) (s : List Nat) :
    ∀ (k : Nat), k < s.length → (rank_values cmp s).getD k 0 ≤ (k : Int) := by
  intro k
  induction k with
  | zero =>
    intro _
    rw [rank_values_getD_zero]
    simp
  | succ k ih =>
    intro h
    rw [rank_values_getD_succ cmp s k h]
    have := ih (by omega)
    split <;> push_cast <;> omega

/-- If the rank at slot `m` reaches `m`, every comparator test on adjacent
slots up to `m` was strict and every rank below equals its slot index. -/
theorem rank_values_eq_index_of_last (cmp : Nat → Nat → Bool) (s : List Nat) (m : Nat)
    (hm : m < s.length) (hlast : (rank_values cmp s).getD m 0 = (m : Int)) :
    ∀ (k : Nat), k ≤ m → ((rank_values cmp s).getD k 0 = (k : Int) ∧
      (k < m → cmp (s.getD k 0) (s.getD (k + 1) 0) = true)) := by
  -- first: ranks equal indices downward from `m`
  have hdown : ∀ (d : Nat), d ≤ m →
      (rank_values cmp s).getD (m - d) 0 = ((m - d : Nat) : Int) := by
    intro d
    induction d with
    | zero => intro _; simpa using hlast
    | succ d ih =>
      intro hd
      have hprev := ih (by omega)
      have hstep : m - d = (m - (d + 1)) + 1 := by omega
      rw [hstep] at hprev
      rw [rank_values_getD_succ cmp s (m - (d + 1)) (by omega)] at hprev
      have h1 := rank_values_le_index cmp s (m - (d + 1)) (by omega)
      have h2 : ((m - (d + 1) : Nat) : Int) + 1 = ((m - d : Nat) : Int) := by
        omega
      split at hprev <;> push_cast at hprev ⊢ <;> omega
  intro k hk
  have hkval := hdown (m - k) (by omega)
  have hmk : m - (m - k) = k := by omega
  rw [hmk] at hkval
  refine ⟨hkval, fun hlt => ?_⟩
  have hk1 := hdown (m - (k + 1)) (by omega)
  have hmk1 : m - (m - (k + 1)) = k + 1 := by omega
  rw [hmk1] at hk1
  rw [rank_values_getD_succ cmp s k (by omega), hkval] at hk1
  by_contra hc
  rw [Bool.not_eq_true] at hc
  rw [hc] at hk1
  push_cast at hk1
  omega

/-- Dense-rank correctness: along a comparator-sorted sequence the assigned
ranks compare exactly as the keys decided by the comparator do. -/
theorem rank_values_iff (cmp : Nat → Nat → Bool) (K : Nat → List Nat) (s : List Nat)
    (hcmp : ∀ a ∈ s, ∀ b ∈ s, (cmp a b = true ↔ lexLt (K a) (K b)))
    (hsort : s.Pairwise (fun a b => cmp b a = false)) :
    ∀ (k m : Nat), k ≤ m → m < s.length →
      (((rank_values cmp s).getD k 0 < (rank_values cmp s).getD m 0 ↔
          lexLt (K (s.getD k 0)) (K (s.getD m 0))) ∧
        ((rank_values cmp s).getD k 0 = (rank_values cmp s).getD m 0 ↔
          K (s.getD k 0) = K (s.getD m 0))) := by
  have hsort' : ∀ (i j : Nat), i < j → j < s.length →
      cmp (s.getD j 0) (s.getD i 0) = false := by
    intro i j hij hj
    have := List.pairwise_iff_getElem.1 hsort i j (by omega) hj hij
    rwa [List.getD_eq_getElem s 0 (by omega : i < s.length),
      List.getD_eq_getElem s 0 hj]
  have hmem : ∀ (i : Nat), i < s.length → s.getD i 0 ∈ s := by
    intro i hi
    rw [List.getD_eq_getElem s 0 hi]
    exact List.getElem_mem hi
  intro k m hkm hm
  induction m with
  | zero =>
    have : k = 0 := by omega
    subst this
    exact ⟨iff_of_false (lt_irrefl _) (lexLt_irrefl _), iff_of_true rfl rfl⟩
  | succ m ih =>
    rcases Nat.lt_succ_iff_lt_or_eq.1 (Nat.lt_succ_of_le hkm) with hlt | heq
    · have IH := ih (by omega) (by omega)
      have hmono := rank_values_mono cmp s k m (by omega) (by omega)
      have hstep := rank_values_getD_succ cmp s m (by omega)
      by_cases hc : cmp (s.getD m 0) (s.getD (m + 1) 0) = true
      · -- strict adjacent step
        have hKlt : lexLt (K (s.getD m 0)) (K (s.getD (m + 1) 0)) :=
          (hcmp _ (hmem m (by omega)) _ (hmem (m + 1) (by omega))).1 hc
        rw [hc] at hstep
        simp only [if_true] at hstep
        have hKle : lexLe (K (s.getD k 0)) (K (s.getD m 0)) := by
          rcases lt_or_le ((rank_values cmp s).getD k 0)
              ((rank_values cmp s).getD m 0) with h | h
          · exact Or.inl (IH.1.1 h)
          · exact Or.inr (IH.2.1 (by omega))
        constructor
        · exact iff_of_true (by omega) (lexLt_of_lexLe_of_lexLt hKle hKlt)
        · refine iff_of_false (by omega) ?_
          intro he
          have := lexLt_of_lexLe_of_lexLt hKle hKlt
          rw [he] at this
          exact lexLt_irrefl _ this
      · -- equal adjacent keys
        rw [Bool.not_eq_true] at hc
        have hc' := hsort' m (m + 1) (by omega) (by omega)
        have hKeq : K (s.getD m 0) = K (s.getD (m + 1) 0) := by
          apply eq_of_not_lexLt_of_not_lexLt
          · intro hl
            rw [← hcmp _ (hmem m (by omega)) _ (hmem (m + 1) (by omega))] at hl
            rw [hc] at hl
            exact Bool.false_ne_true hl
          · intro hl
            rw [← hcmp _ (hmem (m + 1) (by omega)) _ (hmem m (by omega))] at hl
            rw [hc'] at hl
            exact Bool.false_ne_true hl
        rw [hc] at hstep
        simp only [if_false, Bool.false_eq_true, add_zero] at hstep
        rw [hstep, ← hKeq]
        exact IH
    · subst heq
      exact ⟨iff_of_false (lt_irrefl _) (lexLt_irrefl _), iff_of_true rfl rfl⟩

/-! ### One pass of the doubling loop -/

theorem temp_rank_nonneg (cmp : Nat → Nat → Bool) (s : List Nat) (p : Nat) :
    0 ≤ temp_rank cmp s p :=
  rank_values_nonneg cmp s _

theorem temp_rank_getD (cmp : Nat → Nat → Bool) {s : List Nat} (hnd : s.Nodup)
    {k : Nat} (hk : k < s.length) :
    temp_rank cmp s (s.getD k 0) = (rank_values cmp s).getD k 0 := by
  unfold temp_rank
  rw [List.getD_eq_getElem s 0 hk, List.indexOf_getElem hnd k hk]

theorem getD_mem_of_lt {s : List Nat} {k : Nat} (hk : k < s.length) : s.getD k 0 ∈ s := by
  rw [List.getD_eq_getElem s 0 hk]
  exact List.getElem_mem hk

theorem perm_range_length {s : List Nat} {n : Nat} (hp : s.Perm (List.range n)) :
    s.length = n := by
  rw [hp.length_eq, List.length_range]

theorem perm_range_getD_lt {s : List Nat} {n : Nat} (hp : s.Perm (List.range n))
    {k : Nat} (hk : k < s.length) : s.getD k 0 < n := by
  have hm : s.getD k 0 ∈ s := getD_mem_of_lt hk
  rw [hp.mem_iff, List.mem_range] at hm
  exact hm

theorem perm_range_exists {s : List Nat} {n : Nat} (hp : s.Perm (List.range n))
    {p : Nat} (hpn : p < n) : ∃ k, k < s.length ∧ s.getD k 0 = p := by
  have hm : p ∈ s := hp.mem_iff.2 (List.mem_range.2 hpn)
  obtain ⟨k, hk, he⟩ := List.getElem_of_mem hm
  refine ⟨k, hk, ?_⟩
  rw [List.getD_eq_getElem s 0 hk]
  exact he

theorem perm_range_nodup {s : List Nat} {n : Nat} (hp : s.Perm (List.range n)) : s.Nodup :=
  hp.nodup_iff.2 (List.nodup_range n)

theorem perm_range_getD_ne {s : List Nat} {n : Nat} (hp : s.Perm (List.range n))
    {k m : Nat} (hk : k < s.length) (hm : m < s.length) (hne : k ≠ m) :
    s.getD k 0 ≠ s.getD m 0 := by
  rw [List.getD_eq_getElem s 0 hk, List.getD_eq_getElem s 0 hm]
  intro he
  exact hne (((perm_range_nodup hp).getElem_inj_iff).1 he)

theorem pass_sa_perm {n : Nat} (gap : Nat) {st : SAState} (hp : st.sa.Perm (List.range n)) :
    (pass n gap st).sa.Perm (List.range n) :=
  (List.perm_insertionSort _ _).trans hp

theorem pass_sa_sorted (n gap : Nat) (st : SAState) :
    List.Sorted (saLe n st.rank_array gap) (pass n gap st).sa :=
  List.sorted_insertionSort _ _

theorem pass_sa_pairwise (n gap : Nat) (st : SAState) :
    ∀ k m, k < m → m < (pass n gap st).sa.length →
      compare_suffixes n st.rank_array gap
        ((pass n gap st).sa.getD m 0) ((pass n gap st).sa.getD k 0) = false := by
  intro k m hkm hm
  have h := List.pairwise_iff_getElem.1 (pass_sa_sorted n gap st) k m (by omega) hm hkm
  rw [List.getD_eq_getElem _ 0 (by omega : k < (pass n gap st).sa.length),
    List.getD_eq_getElem _ 0 hm]
  exact h

theorem pass_rank_nonneg (n gap : Nat) (st : SAState) (p : Nat) :
    0 ≤ (pass n gap st).rank_array p :=
  temp_rank_nonneg _ _ _

theorem pass_rank_getD {n : Nat} (gap : Nat) {st : SAState}
    (hp : st.sa.Perm (List.range n)) {k : Nat} (hk : k < n) :
    (pass n gap st).rank_array ((pass n gap st).sa.getD k 0) =
      (rank_values (compare_suffixes n st.rank_array gap) (pass n gap st).sa).getD k 0 := by
  have hp' := pass_sa_perm gap hp
  exact temp_rank_getD _ (perm_range_nodup hp') (by rw [perm_range_length hp']; exact hk)

theorem pass_rank_mono {n : Nat} (gap : Nat) {st : SAState}
    (hp : st.sa.Perm (List.range n)) :
    ∀ k m, k ≤ m → m < n →
      (pass n gap st).rank_array ((pass n gap st).sa.getD k 0) ≤
        (pass n gap st).rank_array ((pass n gap st).sa.getD m 0) := by
  intro k m hkm hm
  rw [pass_rank_getD gap hp (lt_of_le_of_lt hkm hm), pass_rank_getD gap hp hm]
  exact rank_values_mono _ _ k m hkm
    (by rw [perm_range_length (pass_sa_perm gap hp)]; exact hm)

theorem pass_hcmp {t : Text} {gap : Nat} {st : SAState} (hinv : KeyInv t gap st.rank_array)
    (hg : 0 < gap) {s : List Nat} (hp : s.Perm (List.range t.length)) :
    ∀ a ∈ s, ∀ b ∈ s,
      (compare_suffixes t.length st.rank_array gap a b = true ↔
        lexLt (keyAt t (gap * 2) a) (keyAt t (gap * 2) b)) := by
  intro a ha b hb
  rw [hp.mem_iff, List.mem_range] at ha hb
  exact compare_suffixes_key_iff hinv hg ha hb

theorem pass_keyInv {t : Text} {gap : Nat} {st : SAState}
    (hinv : KeyInv t gap st.rank_array) (hg : 0 < gap)
    (hp : st.sa.Perm (List.range t.length)) :
    KeyInv t (gap * 2) (pass t.length gap st).rank_array := by
  have hp' := pass_sa_perm gap hp
  have hnd := perm_range_nodup hp'
  have hlen := perm_range_length hp'
  have hiff := rank_values_iff (compare_suffixes t.length st.rank_array gap)
    (keyAt t (gap * 2)) (pass t.length gap st).sa
    (pass_hcmp hinv hg hp') (pass_sa_sorted t.length gap st)
  constructor
  · intro i _
    exact pass_rank_nonneg _ _ _ _
  · intro i hi j hj
    obtain ⟨k, hk, hks⟩ := perm_range_exists hp' hi
    obtain ⟨m, hm, hms⟩ := perm_range_exists hp' hj
    have hri : (pass t.length gap st).rank_array i =
        (rank_values (compare_suffixes t.length st.rank_array gap)
          (pass t.length gap st).sa).getD k 0 := by
      rw [← hks]
      exact temp_rank_getD _ hnd hk
    have hrj : (pass t.length gap st).rank_array j =
        (rank_values (compare_suffixes t.length st.rank_array gap)
          (pass t.length gap st).sa).getD m 0 := by
      rw [← hms]
      exact temp_rank_getD _ hnd hm
    rw [hri, hrj, ← hks, ← hms]
    rcases le_or_lt k m with hkm | hmk
    · exact (hiff k m hkm hm).1
    · have H := hiff m k (le_of_lt hmk) hk
      have hmono := rank_values_mono (compare_suffixes t.length st.rank_array gap)
        (pass t.length gap st).sa m k (le_of_lt hmk) hk
      refine iff_of_false (by omega) ?_
      intro hKlt
      have h1 : ¬ lexLt (keyAt t (gap * 2) ((pass t.length gap st).sa.getD m 0))
          (keyAt t (gap * 2) ((pass t.length gap st).sa.getD k 0)) := lexLt_asymm hKlt
      have h2 : keyAt t (gap * 2) ((pass t.length gap st).sa.getD m 0) ≠
          keyAt t (gap * 2) ((pass t.length gap st).sa.getD k 0) := by
        intro he
        rw [he] at hKlt
        exact lexLt_irrefl _ hKlt
      rcases lt_or_eq_of_le hmono with hc | hc
      · exact h1 (H.1.1 hc)
      · exact h2 (H.2.1 hc)

theorem keyAt_eq_suffixAt_of_ge {t : Text} {g i : Nat} (h : t.length - i ≤ g) :
    keyAt t g i = suffixAt t i := by
  unfold keyAt suffixAt
  apply List.take_of_length_le
  rw [List.length_drop]
  exact h

theorem pass_break_ranks {t : Text} {gap : Nat} {st : SAState}
    (hp : st.sa.Perm (List.range t.length)) (hn : 0 < t.length)
    (hbr : breakCond t.length (pass t.length gap st)) :
    ∀ k, k < t.length →
      ((rank_values (compare_suffixes t.length st.rank_array gap)
          (pass t.length gap st).sa).getD k 0 = (k : Int) ∧
        (k + 1 < t.length → compare_suffixes t.length st.rank_array gap
          ((pass t.length gap st).sa.getD k 0)
          ((pass t.length gap st).sa.getD (k + 1) 0) = true)) := by
  have hp' := pass_sa_perm gap hp
  have hlen := perm_range_length hp'
  have hbr' : (rank_values (compare_suffixes t.length st.rank_array gap)
      (pass t.length gap st).sa).getD (t.length - 1) 0 =
        ((t.length - 1 : Nat) : Int) := by
    have h := hbr
    unfold breakCond at h
    rw [pass_rank_getD gap hp (by omega)] at h
    rw [h]
    omega
  intro k hk
  have H := rank_values_eq_index_of_last (compare_suffixes t.length st.rank_array gap)
    (pass t.length gap st).sa (t.length - 1) (by omega) hbr' k (by omega)
  exact ⟨H.1, fun h1 => H.2 (by omega)⟩

theorem pass_break_good {t : Text} {gap : Nat} {st : SAState}
    (hinv : KeyInv t gap st.rank_array) (hg : 0 < gap)
    (hp : st.sa.Perm (List.range t.length)) (hn : 0 < t.length)
    (hbr : breakCond t.length (pass t.length gap st)) :
    GoodState t (pass t.length gap st) := by
  have hp' := pass_sa_perm gap hp
  have hlen := perm_range_length hp'
  have H := pass_break_ranks hp hn hbr
  refine ⟨hp', ?_, ?_⟩
  · intro k hk
    rw [pass_rank_getD gap hp hk]
    exact (H k hk).1
  · intro k hk1
    have hc := (H k (by omega)).2 hk1
    have hkey := (pass_hcmp hinv hg hp' _ (getD_mem_of_lt (by omega)) _
      (getD_mem_of_lt (by omega))).1 hc
    rw [keyAt_eq_take, keyAt_eq_take] at hkey
    exact lexLt_of_take_lexLt (gap * 2) hkey

theorem pass_break_of_ge {t : Text} {gap : Nat} {st : SAState}
    (hinv : KeyInv t gap st.rank_array) (hg : 0 < gap)
    (hp : st.sa.Perm (List.range t.length)) (hn : 0 < t.length)
    (hge : t.length ≤ gap * 2) :
    breakCond t.length (pass t.length gap st) := by
  have hp' := pass_sa_perm gap hp
  have hlen := perm_range_length hp'
  have hstrict : ∀ k, k + 1 < t.length →
      compare_suffixes t.length st.rank_array gap
        ((pass t.length gap st).sa.getD k 0)
        ((pass t.length gap st).sa.getD (k + 1) 0) = true := by
    intro k hk
    have hpn : (pass t.length gap st).sa.getD k 0 < t.length :=
      perm_range_getD_lt hp' (by omega)
    have hqn : (pass t.length gap st).sa.getD (k + 1) 0 < t.length :=
      perm_range_getD_lt hp' (by omega)
    have hne := perm_range_getD_ne hp' (by omega : k < (pass t.length gap st).sa.length)
      (by omega : k + 1 < (pass t.length gap st).sa.length) (by omega)
    have hkeyp := @keyAt_eq_suffixAt_of_ge t (gap * 2)
      ((pass t.length gap st).sa.getD k 0) (by omega)
    have hkeyq := @keyAt_eq_suffixAt_of_ge t (gap * 2)
      ((pass t.length gap st).sa.getD (k + 1) 0) (by omega)
    have hqp := pass_sa_pairwise t.length gap st k (k + 1) (by omega) (by omega)
    rcases lexLt_trichotomy (keyAt t (gap * 2) ((pass t.length gap st).sa.getD k 0))
      (keyAt t (gap * 2) ((pass t.length gap st).sa.getD (k + 1) 0)) with h | h | h
    · exact (pass_hcmp hinv hg hp' _ (getD_mem_of_lt (by omega)) _
        (getD_mem_of_lt (by omega))).2 h
    · rw [hkeyp, hkeyq] at h
      exact absurd (suffixAt_inj hpn hqn h) hne
    · have := (pass_hcmp hinv hg hp' _ (getD_mem_of_lt (by omega)) _
        (getD_mem_of_lt (by omega))).2 h
      rw [hqp] at this
      exact absurd this Bool.false_ne_true
  have hclimb : ∀ k, k < t.length →
      (rank_values (compare_suffixes t.length st.rank_array gap)
        (pass t.length gap st).sa).getD k 0 = (k : Int) := by
    intro k
    induction k with
    | zero =>
      intro _
      rw [rank_values_getD_zero]
      simp
    | succ k ih =>
      intro h
      rw [rank_values_getD_succ _ _ k (by omega), ih (by omega), hstrict k (by omega)]
      simp
  unfold breakCond
  rw [pass_rank_getD gap hp (by omega)]
  rw [hclimb (t.length - 1) (by omega)]
  omega

/-! ### The initial state and the doubling loop -/

theorem initState_perm (t : Text) : (initState t).sa.Perm (List.range t.length) :=
  List.Perm.refl _

theorem initState_keyInv (t : Text) : KeyInv t 1 (initState t).rank_array := by
  constructor
  · intro i _
    simp [initState]
  · intro i hi j hj
    have hk : ∀ p, p < t.length → keyAt t 1 p = [t.getD p 0] := by
      intro p hp
      rw [keyAt_eq_take, suffixAt_cons hp]
      rfl
    rw [hk i hi, hk j hj]
    show ((t.getD i 0 : Nat) : Int) < ((t.getD j 0 : Nat) : Int) ↔ _
    rw [Nat.cast_lt]
    exact (List.Lex.singleton_iff _ _).symm

theorem saLoop_succ (n fuel gap : Nat) (st : SAState) :
    saLoop n (fuel + 1) gap st =
      (if breakCond n (pass n gap st) then pass n gap st
       else saLoop n fuel (gap * 2) (pass n gap st)) := rfl

theorem loopTrace_succ (n fuel gap : Nat) (st : SAState) :
    loopTrace n (fuel + 1) gap st =
      (if breakCond n (pass n gap st) then [pass n gap st]
       else pass n gap st :: loopTrace n fuel (gap * 2) (pass n gap st)) := rfl

/-- Main induction for the doubling loop: with positive fuel `fuel` such that
`gap * 2 ^ fuel` covers the text, the loop reaches its break condition and
returns a good state, independently of any extra fuel; and every state in the
trace is a permutation with monotone, non-negative ranks. -/
theorem saLoop_good (t : Text) (hn : 0 < t.length) :
    ∀ (fuel gap : Nat) (st : SAState), 0 < fuel → 0 < gap →
      KeyInv t gap st.rank_array → st.sa.Perm (List.range t.length) →
      t.length ≤ gap * 2 ^ fuel →
      (GoodState t (saLoop t.length fuel gap st) ∧
        breakCond t.length (saLoop t.length fuel gap st) ∧
        (∀ f, fuel ≤ f → saLoop t.length f gap st = saLoop t.length fuel gap st) ∧
        (∀ x ∈ loopTrace t.length fuel gap st,
          x.sa.Perm (List.range t.length) ∧
          (∀ k m, k ≤ m → m < t.length →
            x.rank_array (x.sa.getD k 0) ≤ x.rank_array (x.sa.getD m 0)) ∧
          (∀ p, 0 ≤ x.rank_array p))) := by
  intro fuel
  induction fuel with
  | zero =>
    intro gap st h0
    exact absurd h0 (lt_irrefl 0)
  | succ fuel ih =>
    intro gap st _ hg hinv hp hge
    have hkey2 := pass_keyInv hinv hg hp
    have hperm2 := pass_sa_perm gap hp
    have hmono2 := pass_rank_mono gap hp
    have hnn2 := pass_rank_nonneg t.length gap st
    by_cases hbr : breakCond t.length (pass t.length gap st)
    · have hgood := pass_break_good hinv hg hp hn hbr
      simp only [saLoop_succ, loopTrace_succ, if_pos hbr]
      refine ⟨hgood, hbr, ?_, ?_⟩
      · intro f hf
        cases f with
        | zero => omega
        | succ f' => rw [saLoop_succ, if_pos hbr]
      · intro x hx
        rw [List.mem_singleton] at hx
        subst hx
        exact ⟨hperm2, hmono2, hnn2⟩
    · have hfuel' : 0 < fuel := by
        rcases Nat.eq_zero_or_pos fuel with h0 | h0
        · subst h0
          exact absurd (pass_break_of_ge hinv hg hp hn (by simpa using hge)) hbr
        · exact h0
      have hge' : t.length ≤ (gap * 2) * 2 ^ fuel := by
        have he : (gap * 2) * 2 ^ fuel = gap * 2 ^ (fuel + 1) := by
          rw [pow_succ]
          ring
        omega
      obtain ⟨IH1, IH2, IH3, IH4⟩ :=
        ih (gap * 2) (pass t.length gap st) hfuel' (by omega) hkey2 hperm2 hge'
      simp only [saLoop_succ, loopTrace_succ, if_neg hbr]
      refine ⟨IH1, IH2, ?_, ?_⟩
      · intro f hf
        cases f with
        | zero => omega
        | succ f' =>
          rw [saLoop_succ, if_neg hbr]
          exact IH3 f' (by omega)
      · intro x hx
        rcases List.mem_cons.1 hx with rfl | hx'
        · exact ⟨hperm2, hmono2, hnn2⟩
        · exact IH4 x hx'

/-- The doubling phase of the algorithm, run with its actual fuel `n`,
reaches the break condition and produces a good state. -/
theorem buildSA_good (t : Text) (hn : 0 < t.length) :
    GoodState t (buildSA t) ∧ breakCond t.length (buildSA t) ∧
      (∀ f, t.length ≤ f → saLoop t.length f 1 (initState t) = buildSA t) ∧
      (∀ x ∈ loopTrace t.length t.length 1 (initState t),
        x.sa.Perm (List.range t.length) ∧
        (∀ k m, k ≤ m → m < t.length →
          x.rank_array (x.sa.getD k 0) ≤ x.rank_array (x.sa.getD m 0)) ∧
        (∀ p, 0 ≤ x.rank_array p)) := by
  have hpow : t.length ≤ 1 * 2 ^ t.length := by
    have := Nat.lt_two_pow t.length
    omega
  exact saLoop_good t hn t.length 1 (initState t) hn one_pos
    (initState_keyInv t) (initState_perm t) hpow

/-! ### Consequences of a good final state -/

theorem GoodState.sorted_lt {t : Text} {st : SAState} (h : GoodState t st) :
    ∀ k m, k < m → m < t.length →
      lexLt (suffixAt t (st.sa.getD k 0)) (suffixAt t (st.sa.getD m 0)) := by
  intro k m
  induction m with
  | zero =>
    intro hkm _
    omega
  | succ m ihm =>
    intro hkm hm
    rcases Nat.lt_succ_iff_lt_or_eq.1 hkm with h' | h'
    · exact lexLt_trans (ihm h' (by omega)) (h.2.2 m hm)
    · subst h'
      exact h.2.2 k hm

theorem GoodState.rank_lt_iff {t : Text} {st : SAState} (h : GoodState t st) {p q : Nat}
    (hp : p < t.length) (hq : q < t.length) :
    (st.rank_array p < st.rank_array q ↔ lexLt (suffixAt t p) (suffixAt t q)) := by
  obtain ⟨k, hk, hks⟩ := perm_range_exists h.1 hp
  obtain ⟨m, hm, hms⟩ := perm_range_exists h.1 hq
  have hlen := perm_range_length h.1
  rw [← hks, ← hms, h.2.1 k (by omega), h.2.1 m (by omega), Nat.cast_lt]
  constructor
  · intro hkm
    exact h.sorted_lt k m hkm (by omega)
  · intro hlt
    by_contra hc
    rcases eq_or_lt_of_le (Nat.le_of_not_lt hc) with he | hlt2
    · rw [← he] at hlt
      exact lexLt_irrefl _ hlt
    · exact lexLt_asymm hlt (h.sorted_lt m k hlt2 (by omega))

theorem GoodState.rank_range {t : Text} {st : SAState} (h : GoodState t st) {p : Nat}
    (hp : p < t.length) :
    0 ≤ st.rank_array p ∧ st.rank_array p < (t.length : Int) ∧
      st.sa.getD (st.rank_array p).toNat 0 = p := by
  obtain ⟨k, hk, hks⟩ := perm_range_exists h.1 hp
  have hlen := perm_range_length h.1
  have hr : st.rank_array p = (k : Int) := by
    rw [← hks]
    exact h.2.1 k (by omega)
  rw [hr]
  refine ⟨Int.natCast_nonneg k, by exact_mod_cast (show k < t.length by omega), ?_⟩
  rw [Int.toNat_natCast]
  exact hks

/-! ### Kasai's pass -/

theorem extendH_succ (t : Text) (n i p fuel h : Nat) :
    extendH t n i p (fuel + 1) h =
      (if i + h < n ∧ p + h < n ∧ t.getD (i + h) 0 = t.getD (p + h) 0 then
        extendH t n i p fuel (h + 1)
      else h) := rfl

/-- The `while` of Kasai's pass computes the exact common-extension length:
starting from a running match `h` that is a valid lower bound, it returns the
true longest-common-prefix length of the two suffixes. -/
theorem extendH_eq {t : Text} {i p : Nat} :
    ∀ (fuel h : Nat), h ≤ lcpLen (suffixAt t i) (suffixAt t p) →
      lcpLen (suffixAt t i) (suffixAt t p) - h ≤ fuel →
      extendH t t.length i p fuel h = lcpLen (suffixAt t i) (suffixAt t p)
  | 0, h, hle, hfuel => by
    have he : h = lcpLen (suffixAt t i) (suffixAt t p) := by omega
    rw [extendH, he]
  | fuel + 1, h, hle, hfuel => by
    have hbi : lcpLen (suffixAt t i) (suffixAt t p) ≤ t.length - i := by
      have := lcpLen_le_left (suffixAt t i) (suffixAt t p)
      rwa [suffixAt_length] at this
    have hbp : lcpLen (suffixAt t i) (suffixAt t p) ≤ t.length - p := by
      have := lcpLen_le_right (suffixAt t i) (suffixAt t p)
      rwa [suffixAt_length] at this
    rcases eq_or_lt_of_le hle with heq | hlt
    · rw [extendH_succ, if_neg]
      · exact heq
      · rintro ⟨h1, h2, h3⟩
        have hLi : lcpLen (suffixAt t i) (suffixAt t p) < (suffixAt t i).length := by
          rw [suffixAt_length]
          omega
        have hLp : lcpLen (suffixAt t i) (suffixAt t p) < (suffixAt t p).length := by
          rw [suffixAt_length]
          omega
        have hne := getD_ne_of_lcpLen_lt hLi hLp
        rw [suffixAt_getD, suffixAt_getD, ← heq] at hne
        exact hne h3
    · rw [extendH_succ, if_pos]
      · exact extendH_eq fuel (h + 1) hlt (by omega)
      · have hch := getD_eq_of_lt_lcpLen hlt
        rw [suffixAt_getD, suffixAt_getD] at hch
        exact ⟨by omega, by omega, hch⟩

theorem kasaiGo_succ (t : Text) (n : Nat) (sa : List Nat) (r : Nat → Int)
    (fuel i h : Nat) (acc : List Int) :
    kasaiGo t n sa r (fuel + 1) i h acc =
      (if i < n then
        (if 0 < r i then
          kasaiGo t n sa r fuel (i + 1)
            (if 0 < extendH t n i (sa.getD (r i - 1).toNat 0) n h then
              extendH t n i (sa.getD (r i - 1).toNat 0) n h - 1
            else extendH t n i (sa.getD (r i - 1).toNat 0) n h)
            (acc.set (r i).toNat ((extendH t n i (sa.getD (r i - 1).toNat 0) n h : Nat) : Int))
        else kasaiGo t n sa r fuel (i + 1) h acc)
      else acc) := rfl

theorem kasaiGo_length (t : Text) (n : Nat) (sa : List Nat) (r : Nat → Int) :
    ∀ (fuel i h : Nat) (acc : List Int),
      (kasaiGo t n sa r fuel i h acc).length = acc.length
  | 0, _, _, _ => rfl
  | fuel + 1, i, h, acc => by
    rw [kasaiGo_succ]
    by_cases hi : i < n
    · rw [if_pos hi]
      by_cases hr : 0 < r i
      · rw [if_pos hr, kasaiGo_length t n sa r fuel, List.length_set]
      · rw [if_neg hr, kasaiGo_length t n sa r fuel]
    · rw [if_neg hi]

theorem getD_set_self {l : List Int} {k : Nat} (hk : k < l.length) (v : Int) :
    (l.set k v).getD k 0 = v := by
  rw [List.getD_eq_getElem _ 0 (by rw [List.length_set]; exact hk)]
  exact List.getElem_set_self _

theorem getD_set_ne {l : List Int} {k m : Nat} (h : k ≠ m) (v : Int) :
    (l.set k v).getD m 0 = l.getD m 0 := by
  rw [List.getD_eq_getElem?_getD, List.getD_eq_getElem?_getD, List.getElem?_set,
    if_neg h]

/-- Main invariant induction for Kasai's pass: starting at position `i` with
a running match `h` that lower-bounds the true LCP between suffix `i` and any
lexicographically smaller suffix, and an accumulator holding the correct
values for all slots already written, the pass fills every slot `k ≥ 1` with
the exact LCP of the adjacent suffixes `SA[k-1]`, `SA[k]`. -/
theorem kasaiGo_spec (t : Text) {st : SAState} (hgood : GoodState t st) :
    ∀ (fuel i h : Nat) (acc : List Int),
      t.length ≤ i + fuel →
      acc.length = t.length →
      (h = 0 ∨ (i < t.length ∧ ∃ q, q < t.length ∧
        lexLt (suffixAt t q) (suffixAt t i) ∧
        h ≤ lcpLen (suffixAt t i) (suffixAt t q))) →
      (∀ k, k < t.length → acc.getD k 0 =
        (if 0 < k ∧ st.sa.getD k 0 < i then
          ((lcpLen (suffixAt t (st.sa.getD (k - 1) 0))
            (suffixAt t (st.sa.getD k 0)) : Nat) : Int)
        else 0)) →
      ∀ k, k < t.length →
        (kasaiGo t t.length st.sa st.rank_array fuel i h acc).getD k 0 =
          (if 0 < k then
            ((lcpLen (suffixAt t (st.sa.getD (k - 1) 0))
              (suffixAt t (st.sa.getD k 0)) : Nat) : Int)
          else 0) := by
  have hlen' := perm_range_length hgood.1
  intro fuel
  induction fuel with
  | zero =>
    intro i h acc hfi hlen _ hacc k hk
    show acc.getD k 0 = _
    rw [hacc k hk]
    have hsak : st.sa.getD k 0 < t.length :=
      perm_range_getD_lt hgood.1 (by omega)
    by_cases h0 : 0 < k
    · rw [if_pos ⟨h0, by omega⟩, if_pos h0]
    · rw [if_neg (fun hc => h0 hc.1), if_neg h0]
  | succ fuel ih =>
    intro i h acc hfi hlen hinv hacc k hk
    by_cases hi : i < t.length
    · by_cases hr : 0 < st.rank_array i
      · -- write branch: rank i > 0
        obtain ⟨hr0, hrlt, hsar⟩ := hgood.rank_range hi
        have hk₀pos : 0 < (st.rank_array i).toNat := by omega
        have hk₀lt : (st.rank_array i).toNat < t.length := by omega
        have hprevIdx : (st.rank_array i - 1).toNat = (st.rank_array i).toNat - 1 := by
          omega
        have hprevlt : st.sa.getD ((st.rank_array i).toNat - 1) 0 < t.length :=
          perm_range_getD_lt hgood.1 (by omega)
        have hAdj : lexLt (suffixAt t (st.sa.getD ((st.rank_array i).toNat - 1) 0))
            (suffixAt t i) := by
          have hs := hgood.sorted_lt ((st.rank_array i).toNat - 1) (st.rank_array i).toNat
            (by omega) hk₀lt
          rwa [hsar] at hs
        have hHle : h ≤ lcpLen (suffixAt t i)
            (suffixAt t (st.sa.getD ((st.rank_array i).toNat - 1) 0)) := by
          rcases hinv with h0 | ⟨_, q, hqlt, hqlex, hqlcp⟩
          · omega
          · have hrq : st.rank_array q < st.rank_array i :=
              (hgood.rank_lt_iff hqlt hi).2 hqlex
            obtain ⟨hq0, hqr, hsaq⟩ := hgood.rank_range hqlt
            have hmqle : (st.rank_array q).toNat ≤ (st.rank_array i).toNat - 1 := by
              omega
            have hqle : lexLe (suffixAt t q)
                (suffixAt t (st.sa.getD ((st.rank_array i).toNat - 1) 0)) := by
              rcases eq_or_lt_of_le hmqle with he | hlt2
              · rw [← hsaq, he]
                exact lexLe_refl _
              · have hs := hgood.sorted_lt (st.rank_array q).toNat
                  ((st.rank_array i).toNat - 1) hlt2 (by omega)
                rw [hsaq] at hs
                exact Or.inl hs
            have := lcpLen_le_of_between hqle (Or.inl hAdj)
            omega
        have hLbound : lcpLen (suffixAt t i)
            (suffixAt t (st.sa.getD ((st.rank_array i).toNat - 1) 0)) ≤
              t.length - i := by
          have := lcpLen_le_left (suffixAt t i)
            (suffixAt t (st.sa.getD ((st.rank_array i).toNat - 1) 0))
          rwa [suffixAt_length] at this
        have hLboundP : lcpLen (suffixAt t i)
            (suffixAt t (st.sa.getD ((st.rank_array i).toNat - 1) 0)) ≤
              t.length - st.sa.getD ((st.rank_array i).toNat - 1) 0 := by
          have := lcpLen_le_right (suffixAt t i)
            (suffixAt t (st.sa.getD ((st.rank_array i).toNat - 1) 0))
          rwa [suffixAt_length] at this
        have hL : extendH t t.length i
            (st.sa.getD ((st.rank_array i).toNat - 1) 0) t.length h =
            lcpLen (suffixAt t i)
              (suffixAt t (st.sa.getD ((st.rank_array i).toNat - 1) 0)) :=
          extendH_eq t.length h hHle (by omega)
        rw [kasaiGo_succ, if_pos hi, if_pos hr, hprevIdx, hL]
        refine ih (i + 1) _ _ (by omega) (by rw [List.length_set]; exact hlen) ?hb ?wr k hk
        case hb =>
          by_cases hL2 : 2 ≤ lcpLen (suffixAt t i)
              (suffixAt t (st.sa.getD ((st.rank_array i).toNat - 1) 0))
          · right
            have hhead : t.getD i 0 = t.getD (st.sa.getD ((st.rank_array i).toNat - 1) 0) 0 := by
              have hch := getD_eq_of_lt_lcpLen
                (show 0 < lcpLen (suffixAt t i)
                  (suffixAt t (st.sa.getD ((st.rank_array i).toNat - 1) 0)) by omega)
              rw [suffixAt_getD, suffixAt_getD] at hch
              simpa using hch
            have hconsI := suffixAt_cons hi
            have hconsP := suffixAt_cons hprevlt
            have htail : lcpLen (suffixAt t i)
                (suffixAt t (st.sa.getD ((st.rank_array i).toNat - 1) 0)) =
                lcpLen (suffixAt t (i + 1))
                  (suffixAt t (st.sa.getD ((st.rank_array i).toNat - 1) 0 + 1)) + 1 := by
              rw [hconsI, hconsP, lcpLen, if_pos hhead]
            have hAdj' : lexLt
                (suffixAt t (st.sa.getD ((st.rank_array i).toNat - 1) 0 + 1))
                (suffixAt t (i + 1)) := by
              have h2 := hAdj
              rw [hconsI, hconsP, hhead] at h2
              exact lexLt_cons_same.1 h2
            refine ⟨by omega, st.sa.getD ((st.rank_array i).toNat - 1) 0 + 1,
              by omega, hAdj', ?_⟩
            rw [if_pos (show 0 < lcpLen (suffixAt t i)
              (suffixAt t (st.sa.getD ((st.rank_array i).toNat - 1) 0)) by omega)]
            omega
          · left
            split <;> omega
        case wr =>
          intro k' hk'
          by_cases he : k' = (st.rank_array i).toNat
          · subst he
            rw [getD_set_self (by omega) _]
            rw [if_pos ⟨hk₀pos, by rw [hsar]; omega⟩, hsar]
            exact_mod_cast lcpLen_comm (suffixAt t i)
              (suffixAt t (st.sa.getD ((st.rank_array i).toNat - 1) 0))
          · rw [getD_set_ne (Ne.symm he) _, hacc k' hk']
            by_cases h0' : 0 < k'
            · have hne2 : st.sa.getD k' 0 ≠ i := by
                rw [← hsar]
                exact perm_range_getD_ne hgood.1 (by omega) (by omega) he
              exact if_congr (by omega) rfl rfl
            · rw [if_neg (fun hc => h0' hc.1), if_neg (fun hc => h0' hc.1)]
      · -- skip branch: rank i = 0, so suffix i is the minimum and h = 0
        have hr0 : st.rank_array i = 0 := by
          have := (hgood.rank_range hi).1
          omega
        have h0 : h = 0 := by
          rcases hinv with h0 | ⟨_, q, hqlt, hqlex, _⟩
          · exact h0
          · exfalso
            have hrq := (hgood.rank_lt_iff hqlt hi).2 hqlex
            have := (hgood.rank_range hqlt).1
            omega
        rw [kasaiGo_succ, if_pos hi, if_neg hr]
        refine ih (i + 1) h acc (by omega) hlen (Or.inl h0) ?wr2 k hk
        case wr2 =>
          intro k' hk'
          rw [hacc k' hk']
          have hsa0 : st.sa.getD (st.rank_array i).toNat 0 = i :=
            (hgood.rank_range hi).2.2
          have htn : (st.rank_array i).toNat = 0 := by omega
          rw [htn] at hsa0
          by_cases h0' : 0 < k'
          · have hne2 : st.sa.getD k' 0 ≠ i := by
              rw [← hsa0]
              exact perm_range_getD_ne hgood.1 (by omega) (by omega) (by omega)
            exact if_congr (by omega) rfl rfl
          · rw [if_neg (fun hc => h0' hc.1), if_neg (fun hc => h0' hc.1)]
    · rw [kasaiGo_succ, if_neg hi, hacc k hk]
      have hsak : st.sa.getD k 0 < t.length :=
        perm_range_getD_lt hgood.1 (by omega)
      by_cases h0 : 0 < k
      · rw [if_pos ⟨h0, by omega⟩, if_pos h0]
      · rw [if_neg (fun hc => h0 hc.1), if_neg h0]

/-! ### Assembling the two phases -/

theorem buildSuffixArrayAndLCP_eq (t : Text) (hn : 0 < t.length) :
    buildSuffixArrayAndLCP t = ((buildSA t).sa,
      kasaiGo t t.length (buildSA t).sa (buildSA t).rank_array t.length 0 0
        (List.replicate t.length 0)) := by
  unfold buildSuffixArrayAndLCP
  rw [if_neg (by omega)]

theorem buildSA_fst (t : Text) (hn : 0 < t.length) :
    (buildSuffixArrayAndLCP t).1 = (buildSA t).sa := by
  rw [buildSuffixArrayAndLCP_eq t hn]

theorem buildLCP_length (t : Text) (hn : 0 < t.length) :
    (buildSuffixArrayAndLCP t).2.length = t.length := by
  rw [buildSuffixArrayAndLCP_eq t hn]
  show (kasaiGo _ _ _ _ _ _ _ _).length = _
  rw [kasaiGo_length, List.length_replicate]

theorem buildLCP_getD (t : Text) (hn : 0 < t.length) :
    ∀ k, k < t.length → (buildSuffixArrayAndLCP t).2.getD k 0 =
      (if 0 < k then
        ((lcpLen (suffixAt t ((buildSA t).sa.getD (k - 1) 0))
          (suffixAt t ((buildSA t).sa.getD k 0)) : Nat) : Int)
      else 0) := by
  intro k hk
  have hgood := (buildSA_good t hn).1
  rw [buildSuffixArrayAndLCP_eq t hn]
  refine kasaiGo_spec t hgood t.length 0 0 (List.replicate t.length 0) (by omega)
    (by rw [List.length_replicate]) (Or.inl rfl) ?wr0 k hk
  case wr0 =>
    intro k' hk'
    rw [List.getD_eq_getElem _ _ (by rw [List.length_replicate]; exact hk'),
      List.getElem_replicate]
    rw [if_neg (fun hc => absurd hc.2 (Nat.not_lt_zero _))]

/-! ### The claims -/

/-- C1: for every finite input text and every `i` in `1..n-1`, the suffix of
the text starting at `SA[i-1]` is lexicographically less than or equal to
the suffix starting at `SA[i]`, where `SA` is the suffix array returned by
`buildSuffixArrayAndLCP`. -/
theorem C1_sorted_suffixes (t : Text) (i : Nat) (h1 : 1 ≤ i) (h2 : i < t.length) :
    lexLe (suffixAt t ((buildSuffixArrayAndLCP t).1.getD (i - 1) 0))
      (suffixAt t ((buildSuffixArrayAndLCP t).1.getD i 0)) := by
  have hn : 0 < t.length := by omega
  rw [buildSA_fst t hn]
  have h := ((buildSA_good t hn).1).2.2 (i - 1) (by omega)
  rw [Nat.sub_add_cancel h1] at h
  exact lexLe_of_lexLt h

/-- Witness for C1 on the `"banana"` example at `i = 1`. -/
theorem C1_witness :
    (1 ≤ 1 ∧ 1 < bananaText.length) ∧
      lexLe (suffixAt bananaText ((buildSuffixArrayAndLCP bananaText).1.getD 0 0))
        (suffixAt bananaText ((buildSuffixArrayAndLCP bananaText).1.getD 1 0)) :=
  ⟨⟨le_refl 1, by decide⟩, C1_sorted_suffixes bananaText 1 (le_refl 1) (by decide)⟩

/-- C2: for every finite input text of length `n`, the returned `SA` has
length `n` and contains each integer in `0..n-1` exactly once (it is a
permutation of `0..n-1`). -/
theorem C2_permutation (t : Text) :
    (buildSuffixArrayAndLCP t).1.length = t.length ∧
    (buildSuffixArrayAndLCP t).1.Perm (List.range t.length) ∧
    ∀ m, m < t.length → (buildSuffixArrayAndLCP t).1.count m = 1 := by
  have hperm : (buildSuffixArrayAndLCP t).1.Perm (List.range t.length) := by
    rcases Nat.eq_zero_or_pos t.length with h0 | hn
    · have he : buildSuffixArrayAndLCP t = ([], []) := by
        unfold buildSuffixArrayAndLCP
        rw [if_pos h0]
      rw [he, h0]
      exact List.Perm.refl _
    · rw [buildSA_fst t hn]
      exact ((buildSA_good t hn).1).1
  refine ⟨by rw [hperm.length_eq, List.length_range], hperm, ?_⟩
  intro m hm
  rw [hperm.count_eq]
  exact List.count_eq_one_of_mem (List.nodup_range t.length) (List.mem_range.2 hm)

/-- Witness for C2 on the `"banana"` example. -/
theorem C2_witness :
    (buildSuffixArrayAndLCP bananaText).1.length = bananaText.length ∧
    (buildSuffixArrayAndLCP bananaText).1.Perm (List.range bananaText.length) ∧
    ∀ m, m < bananaText.length → (buildSuffixArrayAndLCP bananaText).1.count m = 1 :=
  C2_permutation bananaText

/-- C3: for every non-empty input text of length `n`, the returned `LCP`
array has length `n`, `LCP[0] = 0`, and for every `i` in `1..n-1`, `LCP[i]`
equals the exact length of the longest common prefix, by direct symbol
comparison, of the suffixes starting at `SA[i-1]` and `SA[i]`. -/
theorem C3_lcp_exact (t : Text) (hn : 0 < t.length) :
    (buildSuffixArrayAndLCP t).2.length = t.length ∧
    (buildSuffixArrayAndLCP t).2.getD 0 0 = 0 ∧
    ∀ i, 1 ≤ i → i < t.length →
      (buildSuffixArrayAndLCP t).2.getD i 0 =
        ((lcpLen (suffixAt t ((buildSuffixArrayAndLCP t).1.getD (i - 1) 0))
          (suffixAt t ((buildSuffixArrayAndLCP t).1.getD i 0)) : Nat) : Int) := by
  refine ⟨buildLCP_length t hn, ?_, ?_⟩
  · rw [buildLCP_getD t hn 0 hn, if_neg (lt_irrefl 0)]
  · intro i h1 h2
    rw [buildLCP_getD t hn i h2, if_pos (by omega), buildSA_fst t hn]

/-- Witness for C3 on the `"banana"` example. -/
theorem C3_witness :
    0 < bananaText.length ∧
      ((buildSuffixArrayAndLCP bananaText).2.length = bananaText.length ∧
      (buildSuffixArrayAndLCP bananaText).2.getD 0 0 = 0 ∧
      ∀ i, 1 ≤ i → i < bananaText.length →
        (buildSuffixArrayAndLCP bananaText).2.getD i 0 =
          ((lcpLen (suffixAt bananaText ((buildSuffixArrayAndLCP bananaText).1.getD (i - 1) 0))
            (suffixAt bananaText ((buildSuffixArrayAndLCP bananaText).1.getD i 0)) : Nat) : Int)) :=
  ⟨by decide, C3_lcp_exact bananaText (by decide)⟩

/-- C4: `buildSuffixArrayAndLCP` is total: on every finite input (including
the empty one) it returns a pair of arrays of length `n`; and when the
rank-doubling loop runs (`n ≥ 1`), it terminates by reaching the break test
(maximum assigned rank equals `n - 1`): running it with any fuel at least
`n` gives the same result as the canonical fuel `n`. -/
theorem C4_total (t : Text) :
    (buildSuffixArrayAndLCP t).1.length = t.length ∧
    (buildSuffixArrayAndLCP t).2.length = t.length ∧
    (0 < t.length →
      (∀ f, t.length ≤ f → saLoop t.length f 1 (initState t) = buildSA t) ∧
      breakCond t.length (buildSA t)) := by
  refine ⟨?_, ?_, ?_⟩
  · rcases Nat.eq_zero_or_pos t.length with h0 | hn
    · unfold buildSuffixArrayAndLCP
      rw [if_pos h0]
      simp [h0]
    · rw [buildSA_fst t hn, perm_range_length ((buildSA_good t hn).1).1]
  · rcases Nat.eq_zero_or_pos t.length with h0 | hn
    · unfold buildSuffixArrayAndLCP
      rw [if_pos h0]
      simp [h0]
    · exact buildLCP_length t hn
  · intro hn
    obtain ⟨_, hbr, hirr, _⟩ := buildSA_good t hn
    exact ⟨fun f hf => hirr f hf, hbr⟩

/-- Witness for C4 on the `"banana"` example. -/
theorem C4_witness :
    (buildSuffixArrayAndLCP bananaText).1.length = bananaText.length ∧
    (buildSuffixArrayAndLCP bananaText).2.length = bananaText.length ∧
    (0 < bananaText.length →
      (∀ f, bananaText.length ≤ f →
        saLoop bananaText.length f 1 (initState bananaText) = buildSA bananaText) ∧
      breakCond bananaText.length (buildSA bananaText)) :=
  C4_total bananaText

/-- C5: after every rank-recomputation pass of the rank-doubling loop,
`rank[SA[k]]` is non-decreasing in `k`; and when the loop terminates the
final rank table is the inverse permutation of `SA`: `rank[SA[k]] = k` for
every `k` in `0..n-1`. -/
theorem C5_rank_invariant (t : Text) (hn : 0 < t.length) :
    (∀ x ∈ loopTrace t.length t.length 1 (initState t),
      ∀ k m, k ≤ m → m < t.length →
        x.rank_array (x.sa.getD k 0) ≤ x.rank_array (x.sa.getD m 0)) ∧
    (∀ k, k < t.length →
      (buildSA t).rank_array ((buildSA t).sa.getD k 0) = (k : Int)) := by
  obtain ⟨hgood, _, _, htrace⟩ := buildSA_good t hn
  exact ⟨fun x hx => (htrace x hx).2.1, hgood.2.1⟩

/-- Witness for C5 on the `"banana"` example. -/
theorem C5_witness :
    0 < bananaText.length ∧
      ((∀ x ∈ loopTrace bananaText.length bananaText.length 1 (initState bananaText),
        ∀ k m, k ≤ m → m < bananaText.length →
          x.rank_array (x.sa.getD k 0) ≤ x.rank_array (x.sa.getD m 0)) ∧
      (∀ k, k < bananaText.length →
        (buildSA bananaText).rank_array ((buildSA bananaText).sa.getD k 0) = (k : Int))) :=
  ⟨by decide, C5_rank_invariant bananaText (by decide)⟩

/-- C6: in every iteration of the rank-doubling loop the sentinel `-1` used
as the "next rank" of a position `i` with `i + gap ≥ n` is strictly less
than every real rank value held in any rank table the loop consults (the
initial table of raw symbol ordinals and every recomputed table); as a
consequence, of two equally ranked positions, the one whose suffix ends
within the next `gap` symbols compares strictly before the longer one. -/
theorem C6_sentinel (t : Text) (hn : 0 < t.length) :
    (∀ x ∈ initState t :: loopTrace t.length t.length 1 (initState t),
      ∀ p, p < t.length → (-1 : Int) < x.rank_array p) ∧
    (∀ (ra : Nat → Int) (gap i j : Nat), (∀ p, p < t.length → (-1 : Int) < ra p) →
      t.length ≤ i + gap → j + gap < t.length → ra i = ra j →
      compare_suffixes t.length ra gap i j = true ∧
      compare_suffixes t.length ra gap j i = false) := by
  constructor
  · intro x hx p hp
    rcases List.mem_cons.1 hx with rfl | hx'
    · show (-1 : Int) < ((t.getD p 0 : Nat) : Int)
      have := Int.natCast_nonneg (t.getD p 0)
      omega
    · have := ((buildSA_good t hn).2.2.2 x hx').2.2 p
      omega
  · intro ra gap i j hpos hi hj hij
    constructor
    · rw [compare_suffixes_true_iff]
      right
      refine ⟨hij, ?_⟩
      unfold nextRank
      rw [if_neg (by omega), if_pos hj]
      exact hpos _ hj
    · rw [compare_suffixes_false_iff]
      unfold nextRank
      rw [if_pos hj, if_neg (by omega)]
      have := hpos (j + gap) hj
      omega

/-- Witness for C6 on the `"banana"` example. -/
theorem C6_witness :
    0 < bananaText.length ∧
      ((∀ x ∈ initState bananaText ::
          loopTrace bananaText.length bananaText.length 1 (initState bananaText),
        ∀ p, p < bananaText.length → (-1 : Int) < x.rank_array p) ∧
      (∀ (ra : Nat → Int) (gap i j : Nat),
        (∀ p, p < bananaText.length → (-1 : Int) < ra p) →
        bananaText.length ≤ i + gap → j + gap < bananaText.length → ra i = ra j →
        compare_suffixes bananaText.length ra gap i j = true ∧
        compare_suffixes bananaText.length ra gap j i = false)) :=
  ⟨by decide, C6_sentinel bananaText (by decide)⟩

/-- C7: `buildSuffixArrayAndLCP` returns `SA = []`, `LCP = []` on the empty
input, and `SA = [0]`, `LCP = [0]` on every single-symbol input. -/
theorem C7_boundary :
    buildSuffixArrayAndLCP [] = ([], []) ∧
    ∀ c : Nat, buildSuffixArrayAndLCP [c] = ([0], [0]) :=
  ⟨rfl, fun _ => rfl⟩

/-- C8: the two concrete scenarios of the specification, with the texts
`"banana"` and `"mississippi"` given by their ASCII ordinals. -/
theorem C8_examples :
    buildSuffixArrayAndLCP bananaText = ([5, 3, 1, 0, 4, 2], [0, 1, 3, 0, 0, 2]) ∧
    buildSuffixArrayAndLCP mississippiText =
      ([10, 7, 4, 1, 0, 9, 8, 6, 3, 5, 2], [0, 1, 1, 4, 0, 0, 1, 0, 2, 1, 3]) := by
  constructor <;> decide

/-- Counterexample to C9 as stated: on the empty input the function returns
at the `n == 0` early exit (source lines 28-30) before the rank-doubling
loop, so the loop body executes zero times, not at least once. -/
theorem C9_counterexample :
    passCount ([] : Text) = 0 ∧ ¬ (1 ≤ passCount ([] : Text)) := by
  exact ⟨rfl, by decide⟩

/-- C9 as amended: for every input of length at most one, the loop body
executes exactly once and the loop then stops — except on the empty input,
where the early return skips the loop and the body executes zero times. -/
theorem C9_amended (t : Text) (h : t.length ≤ 1) :
    passCount t = (if t.length = 0 then 0 else 1) := by
  cases t with
  | nil => rfl
  | cons c rest =>
    cases rest with
    | nil => rfl
    | cons d rest2 =>
      exfalso
      simp [List.length_cons] at h

/-- Witness for the amended C9 on the single-symbol input `[5]`. -/
theorem C9_witness :
    ([5] : Text).length ≤ 1 ∧
      passCount ([5] : Text) = (if ([5] : Text).length = 0 then 0 else 1) :=
  ⟨by decide, C9_amended [5] (by decide)⟩

/-- C10: for every non-empty input, every value of the returned `LCP` array
is non-negative, and for `i` in `1..n-1`, `LCP[i]` never exceeds
`n - max(SA[i-1], SA[i])`, the length of the shorter adjacent suffix. -/
theorem C10_lcp_bounds (t : Text) (hn : 0 < t.length) :
    (∀ k, k < t.length → 0 ≤ (buildSuffixArrayAndLCP t).2.getD k 0) ∧
    (∀ i, 1 ≤ i → i < t.length →
      (buildSuffixArrayAndLCP t).2.getD i 0 ≤
        ((t.length - max ((buildSuffixArrayAndLCP t).1.getD (i - 1) 0)
          ((buildSuffixArrayAndLCP t).1.getD i 0) : Nat) : Int)) := by
  constructor
  · intro k hk
    rw [buildLCP_getD t hn k hk]
    split
    · exact Int.natCast_nonneg _
    · exact le_refl 0
  · intro i h1 h2
    rw [buildLCP_getD t hn i h2, if_pos (by omega), buildSA_fst t hn]
    have hb1 := lcpLen_le_left (suffixAt t ((buildSA t).sa.getD (i - 1) 0))
      (suffixAt t ((buildSA t).sa.getD i 0))
    have hb2 := lcpLen_le_right (suffixAt t ((buildSA t).sa.getD (i - 1) 0))
      (suffixAt t ((buildSA t).sa.getD i 0))
    rw [suffixAt_length] at hb1 hb2
    rw [Nat.cast_le]
    omega

/-- Witness for C10 on the `"banana"` example. -/
theorem C10_witness :
    0 < bananaText.length ∧
      ((∀ k, k < bananaText.length →
        0 ≤ (buildSuffixArrayAndLCP bananaText).2.getD k 0) ∧
      (∀ i, 1 ≤ i → i < bananaText.length →
        (buildSuffixArrayAndLCP bananaText).2.getD i 0 ≤
          ((bananaText.length - max ((buildSuffixArrayAndLCP bananaText).1.getD (i - 1) 0)
            ((buildSuffixArrayAndLCP bananaText).1.getD i 0) : Nat) : Int))) :=
  ⟨by decide, C10_lcp_bounds bananaText (by decide)⟩

end SuffixArray
